import Mathlib

/-!
Verification of the PriorBox operator (prior_box_op.h): aspect-ratio
expansion, per-cell prior-box generation, optional clipping, and variance
broadcasting. Floating-point values are modelled exactly as rationals; the
C library function sqrt is abstracted as an explicit function parameter
named sq, since no claim depends on its numeric value beyond nonnegativity.
-/

namespace PriorBox

/-- Absolute value as computed by fabs in the source. -/
def fabs (x : ℚ) : ℚ := if x < 0 then -x else x

/-- The dedup / unit-ratio tolerance, 1e-6 in the source. -/
def eps : ℚ := 1 / 1000000

/-- Inner scan loop of ExpandAspectRatios: does any element of the output
so far lie within eps of ar. -/
def containsClose : List ℚ → ℚ → Bool
  | [], _ => false
  | v :: rest, ar => if fabs (ar - v) < eps then true else containsClose rest ar

/-- Main loop of ExpandAspectRatios over the remaining input ratios,
carrying the output vector accumulated so far. -/
def expandLoop (flip : Bool) : List ℚ → List ℚ → List ℚ
  | out, [] => out
  | out, ar :: rest =>
    if containsClose out ar then expandLoop flip out rest
    else expandLoop flip (out ++ ar :: (if flip then [1 / ar] else [])) rest

/-- ExpandAspectRatios from the source: output starts as the singleton 1,
then each input ratio is processed in order by expandLoop. -/
def expandAspectRatios (input : List ℚ) (flip : Bool) : List ℚ :=
  expandLoop flip [1] input

/-- One output box: the four coordinates written at a fixed (h, w, idx). -/
structure Box where
  xmin : ℚ
  ymin : ℚ
  xmax : ℚ
  ymax : ℚ
deriving DecidableEq

/-- The four coordinate writes the generator performs for one box of
width bw and height bh centered at (cx, cy), normalized by the image
dimensions. -/
def mkBox (cx cy bw bh iw ih : ℚ) : Box :=
  ⟨(cx - bw / 2) / iw, (cy - bh / 2) / ih, (cx + bw / 2) / iw, (cy + bh / 2) / ih⟩

/-- The attribute bundle read by PriorBoxOpKernel::Compute. min_sizes and
max_sizes are int vectors in the source; the rest are floats or bools. -/
structure Config where
  min_sizes : List ℤ
  max_sizes : List ℤ
  aspect_ratios : List ℚ
  variances : List ℚ
  flip : Bool
  clip : Bool
  step_w : ℚ
  step_h : ℚ
  offset : ℚ
deriving DecidableEq

/-- num_priors as computed in the source: expanded ratio count times
min-size count, plus the max-size count when max_sizes is non-empty. -/
def numPriors (c : Config) : ℕ :=
  (expandAspectRatios c.aspect_ratios c.flip).length * c.min_sizes.length +
    (if 0 < c.max_sizes.length then c.max_sizes.length else 0)

/-- Step size resolution from the source: derived from image and layer
dimensions when either configured step is zero. -/
def resolveSteps (c : Config) (layer_w layer_h img_w img_h : ℕ) : ℚ × ℚ :=
  if c.step_w = 0 ∨ c.step_h = 0 then
    ((img_w : ℚ) / (layer_w : ℚ), (img_h : ℚ) / (layer_h : ℚ))
  else (c.step_w, c.step_h)

/-- The boxes the generator emits, in emission order, for one min-size
index s within one cell: the ratio-1 box, then (when max_sizes is
non-empty) the sqrt(min*max) box, then one box per expanded ratio that is
not within eps of 1. -/
def cellBoxesForSize (sq : ℚ → ℚ) (c : Config) (cx cy iw ih : ℚ) (s : ℕ) : List Box :=
  let min_size : ℚ := ((c.min_sizes.getD s 0 : ℤ) : ℚ)
  mkBox cx cy min_size min_size iw ih ::
    ((if 0 < c.max_sizes.length then
        [mkBox cx cy (sq (min_size * ((c.max_sizes.getD s 0 : ℤ) : ℚ)))
          (sq (min_size * ((c.max_sizes.getD s 0 : ℤ) : ℚ))) iw ih]
      else []) ++
      (expandAspectRatios c.aspect_ratios c.flip).filterMap (fun ar =>
        if fabs (ar - 1) < eps then none
        else some (mkBox cx cy (min_size * sq ar) (min_size / sq ar) iw ih)))

/-- All boxes emitted in one cell, in emission order: the position of a
box in this list is the per-cell index idx at which the source writes it. -/
def cellBoxes (sq : ℚ → ℚ) (c : Config) (cx cy iw ih : ℚ) : List Box :=
  (List.range c.min_sizes.length).flatMap (cellBoxesForSize sq c cx cy iw ih)

/-- The full boxes buffer before clipping, indexed [h][w][idx], with cell
centers (w + offset) * step_width and (h + offset) * step_height. -/
def rawGrid (sq : ℚ → ℚ) (c : Config) (layer_h layer_w img_h img_w : ℕ) :
    List (List (List Box)) :=
  (List.range layer_h).map (fun h =>
    (List.range layer_w).map (fun w =>
      cellBoxes sq c
        (((w : ℚ) + c.offset) * (resolveSteps c layer_w layer_h img_w img_h).1)
        (((h : ℚ) + c.offset) * (resolveSteps c layer_w layer_h img_w img_h).2)
        (img_w : ℚ) (img_h : ℚ)))

/-- ClipFunctor from the source: clamp one coordinate into the unit
interval. -/
def clipFunctor (x : ℚ) : ℚ := min (max x 0) 1

/-- Elementwise clamp of one box, as the Transform pass applies
clipFunctor to each of its four stored coordinates. -/
def clipBox (b : Box) : Box :=
  ⟨clipFunctor b.xmin, clipFunctor b.ymin, clipFunctor b.xmax, clipFunctor b.ymax⟩

/-- One row of the variances output, as var_et is filled: entry i is
variances[i]. -/
def varRow (variances : List ℚ) : List ℚ :=
  (List.range variances.length).map (fun i => variances.getD i 0)

/-- The variances output: the single row broadcast to
layer_height * layer_width * num_priors identical rows. -/
def varsOut (c : Config) (layer_h layer_w : ℕ) : List (List ℚ) :=
  List.replicate (layer_h * layer_w * numPriors c) (varRow c.variances)

/-- The whole Compute kernel: generate the raw boxes grid, clamp every
coordinate when clip is set, and broadcast the variances row. -/
def compute (sq : ℚ → ℚ) (c : Config) (layer_h layer_w img_h img_w : ℕ) :
    List (List (List Box)) × List (List ℚ) :=
  let grid := rawGrid sq c layer_h layer_w img_h img_w
  (if c.clip then grid.map (List.map (List.map clipBox)) else grid,
    varsOut c layer_h layer_w)

/-- Identity stand-in used to instantiate the abstract sq parameter at
concrete inputs whose claims do not depend on its value. -/
def sqId : ℚ → ℚ := fun x => x

/-- Configuration exhibiting a flip reciprocal within eps of 1: the ratio
1 + 1e-6 is kept by the dedup (distance from 1 is exactly eps, not below),
while its reciprocal lands strictly within eps of 1 and is skipped by the
generator, so the per-cell emission count falls short of numPriors. -/
def cfgDup : Config :=
  ⟨[1], [], [1 + 1/1000000], [1/10, 1/10, 1/5, 1/5], true, false, 0, 0, 1/2⟩

example : expandAspectRatios [2, 3] true = [1, 2, 1/2, 3, 1/3] := by
  norm_num [expandAspectRatios, expandLoop, containsClose, fabs, eps]

example : (cellBoxes sqId cfgDup 0 0 1 1).length = 2 := by
  norm_num [cellBoxes, cellBoxesForSize, cfgDup, expandAspectRatios, expandLoop,
    containsClose, fabs, eps, List.range_succ, Function.comp, List.filterMap_cons]

example : numPriors cfgDup = 3 := by
  norm_num [numPriors, cfgDup, expandAspectRatios, expandLoop, containsClose, fabs, eps]

lemma expandLoop_append (flip : Bool) (l1 l2 out : List ℚ) :
    expandLoop flip out (l1 ++ l2) = expandLoop flip (expandLoop flip out l1) l2 := by
  induction l1 generalizing out with
  | nil => simp [expandLoop]
  | cons a l1 ih =>
    by_cases h : containsClose out a
    · simp [expandLoop, h, ih]
    · simp [expandLoop, h, ih]

lemma expandLoop_extends (flip : Bool) (input : List ℚ) :
    ∀ out : List ℚ, ∃ t, expandLoop flip out input = out ++ t := by
  induction input with
  | nil => exact fun out => ⟨[], by simp [expandLoop]⟩
  | cons ar rest ih =>
    intro out
    by_cases h : containsClose out ar
    · obtain ⟨t, ht⟩ := ih out
      exact ⟨t, by simp [expandLoop, h, ht]⟩
    · obtain ⟨t, ht⟩ := ih (out ++ ar :: (if flip then [1 / ar] else []))
      refine ⟨ar :: (if flip then [1 / ar] else []) ++ t, ?_⟩
      have step : expandLoop flip out (ar :: rest) =
          expandLoop flip (out ++ ar :: (if flip then [1 / ar] else [])) rest := by
        simp only [expandLoop, if_neg h]
      rw [step, ht]
      simp [List.append_assoc]

lemma expand_eq_cons (input : List ℚ) (flip : Bool) :
    ∃ t, expandAspectRatios input flip = 1 :: t := by
  obtain ⟨t, ht⟩ := expandLoop_extends flip input [1]
  exact ⟨t, by simpa [expandAspectRatios] using ht⟩

lemma containsClose_iff (out : List ℚ) (ar : ℚ) :
    containsClose out ar = true ↔ ∃ v ∈ out, fabs (ar - v) < eps := by
  induction out with
  | nil => simp [containsClose]
  | cons v rest ih =>
    by_cases h : fabs (ar - v) < eps
    · simp [containsClose, h]
    · simp only [containsClose, if_neg h, ih, List.mem_cons]
      constructor
      · rintro ⟨u, hu, hlt⟩
        exact ⟨u, Or.inr hu, hlt⟩
      · rintro ⟨u, hu | hu, hlt⟩
        · exact absurd (hu ▸ hlt) h
        · exact ⟨u, hu, hlt⟩

lemma expandLoop_pos (flip : Bool) (input : List ℚ) :
    ∀ out : List ℚ, (∀ r ∈ out, 0 < r) → (∀ r ∈ input, 0 < r) →
      ∀ r ∈ expandLoop flip out input, 0 < r := by
  induction input with
  | nil => intro out hout _ r hr; exact hout r (by simpa [expandLoop] using hr)
  | cons ar rest ih =>
    intro out hout hin r hr
    have har : 0 < ar := hin ar (by simp)
    by_cases h : containsClose out ar
    · exact ih out hout (fun x hx => hin x (List.mem_cons_of_mem _ hx)) r
        (by simpa [expandLoop, h] using hr)
    · refine ih (out ++ ar :: (if flip then [1 / ar] else [])) ?_
        (fun x hx => hin x (List.mem_cons_of_mem _ hx)) r
        (by simpa [expandLoop, h] using hr)
      intro x hx
      rcases List.mem_append.mp hx with hx | hx
      · exact hout x hx
      · rcases List.mem_cons.mp hx with rfl | hx
        · exact har
        · cases flip with
          | false => simp at hx
          | true =>
            have : x = 1 / ar := by simpa using hx
            subst this
            exact div_pos one_pos har

lemma expand_pos (input : List ℚ) (flip : Bool) (hin : ∀ r ∈ input, 0 < r) :
    ∀ r ∈ expandAspectRatios input flip, 0 < r := by
  intro r hr
  exact expandLoop_pos flip input [1] (by norm_num) hin r hr

lemma varRow_eq (l : List ℚ) : varRow l = l := by
  apply List.ext_getElem
  · simp [varRow]
  · intro i h1 h2
    simp [varRow, List.getD_eq_getElem?_getD, List.getElem?_eq_getElem h2]

/-- C9: the clip functor is idempotent and maps every rational into the
unit interval: clip(clip(c)) = clip(c) and 0 <= clip(c) <= 1. -/
theorem clip_idempotent_range (x : ℚ) :
    clipFunctor (clipFunctor x) = clipFunctor x ∧
      0 ≤ clipFunctor x ∧ clipFunctor x ≤ 1 := by
  have h0 : 0 ≤ clipFunctor x := le_min (le_max_right x 0) zero_le_one
  have h1 : clipFunctor x ≤ 1 := min_le_right _ _
  refine ⟨?_, h0, h1⟩
  calc clipFunctor (clipFunctor x) = min (max (clipFunctor x) 0) 1 := rfl
    _ = min (clipFunctor x) 1 := by rw [max_eq_left h0]
    _ = clipFunctor x := min_eq_left h1

/-- Configuration with both steps set, used to instantiate step
resolution. -/
def cfgSteps : Config := ⟨[30], [], [], [1/10, 1/10, 1/5, 1/5], false, false, 7, 9, 1/2⟩

/-- C7: when both configured steps are non-zero they are used as given;
when either is zero both steps are derived as image over layer dimension
by rational division. -/
theorem step_resolution (c : Config) (lw lh iw ih : ℕ) :
    (c.step_w ≠ 0 → c.step_h ≠ 0 → resolveSteps c lw lh iw ih = (c.step_w, c.step_h)) ∧
      (c.step_w = 0 ∨ c.step_h = 0 →
        resolveSteps c lw lh iw ih = ((iw : ℚ) / (lw : ℚ), (ih : ℚ) / (lh : ℚ))) := by
  constructor
  · intro hw hh
    simp only [resolveSteps]
    rw [if_neg]
    rintro (h | h)
    · exact hw h
    · exact hh h
  · intro h
    simp only [resolveSteps]
    rw [if_pos h]

/-- Witness for C7 at a concrete configuration with both steps set. -/
theorem step_resolution_witness : resolveSteps cfgSteps 2 3 4 5 = (7, 9) :=
  (step_resolution cfgSteps 2 3 4 5).1 (by norm_num [cfgSteps]) (by norm_num [cfgSteps])

/-- Configuration with one min size, one max size and one extra aspect
ratio, from the prior-count example. -/
def cfgMax : Config := ⟨[30], [60], [2], [1/10, 1/10, 1/5, 1/5], false, false, 0, 0, 1/2⟩

/-- C5: the per-cell prior count equals the expanded ratio count times the
min-size count plus the max-size count; at the example configuration the
expansion is the two ratios 1 and 2 and the count is 3. -/
theorem num_priors_formula :
    (∀ c : Config, numPriors c =
      (expandAspectRatios c.aspect_ratios c.flip).length * c.min_sizes.length +
        c.max_sizes.length) ∧
    expandAspectRatios [2] false = [1, 2] ∧
    numPriors cfgMax = 3 := by
  refine ⟨?_, ?_, ?_⟩
  · intro c
    by_cases h : 0 < c.max_sizes.length
    · simp [numPriors, h]
    · simp only [numPriors, if_neg h]
      omega
  · norm_num [expandAspectRatios, expandLoop, containsClose, fabs, eps]
  · norm_num [numPriors, cfgMax, expandAspectRatios, expandLoop, containsClose, fabs, eps]

/-- C6: the variances output has layer_height * layer_width * num_priors
rows and every row is exactly the configured variances vector. -/
theorem variance_broadcast :
    (∀ (c : Config) (lh lw : ℕ), (varsOut c lh lw).length = lh * lw * numPriors c) ∧
      (∀ (c : Config) (lh lw : ℕ), ∀ row ∈ varsOut c lh lw, row = c.variances) := by
  constructor
  · intro c lh lw
    simp [varsOut]
  · intro c lh lw row hrow
    have := List.eq_of_mem_replicate hrow
    rw [this, varRow_eq]

/-- Witness for C6 at a concrete configuration. -/
theorem variance_broadcast_witness :
    [(1:ℚ)/10, 1/10, 1/5, 1/5] ∈ varsOut cfgMax 1 1 ∧
      [(1:ℚ)/10, 1/10, 1/5, 1/5] = cfgMax.variances := by
  have hmem : [(1:ℚ)/10, 1/10, 1/5, 1/5] ∈ varsOut cfgMax 1 1 := by
    have h3 : varsOut cfgMax 1 1 = List.replicate (1 * 1 * numPriors cfgMax) cfgMax.variances := by
      simp only [varsOut, varRow_eq]
    rw [h3, List.mem_replicate]
    exact ⟨by norm_num [numPriors, cfgMax, expandAspectRatios, expandLoop,
      containsClose, fabs, eps], by norm_num [cfgMax]⟩
  exact ⟨hmem, variance_broadcast.2 cfgMax 1 1 _ hmem⟩

/-- C2: the expanded ratio list starts with 1; extending the input by one
ratio appends it exactly when no element of the output built so far lies
within eps of it, immediately followed by its reciprocal when flip is set,
with no dedup check on the reciprocal; and the documented example
expansion holds. -/
theorem expand_characterization :
    (∀ (input : List ℚ) (flip : Bool), (expandAspectRatios input flip).head? = some 1) ∧
    (∀ (input : List ℚ) (ar : ℚ) (flip : Bool),
      expandAspectRatios (input ++ [ar]) flip =
        if ∃ v ∈ expandAspectRatios input flip, fabs (ar - v) < eps
        then expandAspectRatios input flip
        else expandAspectRatios input flip ++ ar :: (if flip then [1 / ar] else [])) ∧
    expandAspectRatios [2, 3] true = [1, 2, 1/2, 3, 1/3] := by
  refine ⟨?_, ?_, ?_⟩
  · intro input flip
    obtain ⟨t, ht⟩ := expand_eq_cons input flip
    rw [ht]
    rfl
  · intro input ar flip
    have h1 : expandAspectRatios (input ++ [ar]) flip
        = expandLoop flip (expandAspectRatios input flip) [ar] := by
      rw [expandAspectRatios, expandAspectRatios, expandLoop_append]
    rw [h1]
    by_cases h : containsClose (expandAspectRatios input flip) ar
    · rw [if_pos ((containsClose_iff _ _).mp h)]
      simp [expandLoop, h]
    · rw [if_neg (fun hex => h ((containsClose_iff _ _).mpr hex))]
      simp [expandLoop, h]
  · norm_num [expandAspectRatios, expandLoop, containsClose, fabs, eps]

/-- C8: with clip set, the boxes output is the elementwise clamp of the
raw generator grid and the variances output is the one a clip-free
configuration produces; with clip unset the boxes output is the raw grid;
and the clamp sends each stored coordinate v to min(max(v,0),1). -/
theorem clip_application :
    (∀ (sq : ℚ → ℚ) (c : Config) (lh lw ih iw : ℕ), c.clip = true →
      (compute sq c lh lw ih iw).1 =
        (rawGrid sq c lh lw ih iw).map (List.map (List.map clipBox)) ∧
      (compute sq c lh lw ih iw).2 = (compute sq { c with clip := false } lh lw ih iw).2) ∧
    (∀ (sq : ℚ → ℚ) (c : Config) (lh lw ih iw : ℕ), c.clip = false →
      (compute sq c lh lw ih iw).1 = rawGrid sq c lh lw ih iw) ∧
    (∀ b : Box, clipBox b =
      ⟨min (max b.xmin 0) 1, min (max b.ymin 0) 1,
        min (max b.xmax 0) 1, min (max b.ymax 0) 1⟩) := by
  refine ⟨?_, ?_, ?_⟩
  · intro sq c lh lw ih iw hclip
    exact ⟨by simp [compute, hclip], rfl⟩
  · intro sq c lh lw ih iw hclip
    simp [compute, hclip]
  · intro b
    rfl

/-- Configuration of the geometry example: 1x1 layer, 300x300 image, one
min size 30, no extra ratios, derived steps, offset one half. -/
def cfg300 : Config := ⟨[30], [], [], [1/10, 1/10, 1/5, 1/5], false, false, 0, 0, 1/2⟩

/-- The geometry example configuration with clipping enabled. -/
def cfgClip : Config := { cfg300 with clip := true }

/-- Witness for C8 at a concrete clipping configuration. -/
theorem clip_application_witness :
    (compute sqId cfgClip 1 1 300 300).1 =
      (rawGrid sqId cfgClip 1 1 300 300).map (List.map (List.map clipBox)) ∧
    (compute sqId cfgClip 1 1 300 300).2 =
      (compute sqId { cfgClip with clip := false } 1 1 300 300).2 :=
  clip_application.1 sqId cfgClip 1 1 300 300 rfl

lemma mem_cellBoxes {sq : ℚ → ℚ} {c : Config} {cx cy iw ih : ℚ} {box : Box}
    (hbox : box ∈ cellBoxes sq c cx cy iw ih) :
    ∃ bw bh : ℚ, box = mkBox cx cy bw bh iw ih := by
  obtain ⟨s, hs, hmem⟩ := List.mem_flatMap.mp hbox
  simp only [cellBoxesForSize] at hmem
  rcases List.mem_cons.mp hmem with heq | hmem
  · exact ⟨_, _, heq⟩
  rcases List.mem_append.mp hmem with hmem | hmem
  · by_cases hm : 0 < c.max_sizes.length
    · rw [if_pos hm] at hmem
      obtain heq : box = _ := by simpa using hmem
      exact ⟨_, _, heq⟩
    · rw [if_neg hm] at hmem
      simp at hmem
  · obtain ⟨ar, har, heq⟩ := List.mem_filterMap.mp hmem
    by_cases hcond : fabs (ar - 1) < eps
    · rw [if_pos hcond] at heq
      simp at heq
    · rw [if_neg hcond] at heq
      exact ⟨_, _, (Option.some.inj heq).symm⟩

/-- C4: every emitted box stores exactly the four normalized corner
formulas for some width and height around the cell center, and at the
1x1-layer, 300x300-image example the single produced box is
[0.45, 0.45, 0.55, 0.55] with both steps resolved to 300. -/
theorem box_coordinate_formula :
    (∀ (sq : ℚ → ℚ) (c : Config) (cx cy iw ih : ℚ) (box : Box),
      box ∈ cellBoxes sq c cx cy iw ih →
      ∃ bw bh : ℚ,
        box.xmin = (cx - bw / 2) / iw ∧ box.ymin = (cy - bh / 2) / ih ∧
          box.xmax = (cx + bw / 2) / iw ∧ box.ymax = (cy + bh / 2) / ih) ∧
    (∀ (sq : ℚ → ℚ) (c : Config) (lh lw ih iw : ℕ),
      rawGrid sq c lh lw ih iw = (List.range lh).map (fun h =>
        (List.range lw).map (fun w =>
          cellBoxes sq c (((w : ℚ) + c.offset) * (resolveSteps c lw lh iw ih).1)
            (((h : ℚ) + c.offset) * (resolveSteps c lw lh iw ih).2)
            (iw : ℚ) (ih : ℚ)))) ∧
    (compute sqId cfg300 1 1 300 300).1 = [[[⟨9/20, 9/20, 11/20, 11/20⟩]]] ∧
    resolveSteps cfg300 1 1 300 300 = (300, 300) := by
  refine ⟨?_, ?_, ?_, ?_⟩
  · intro sq c cx cy iw ih box hbox
    obtain ⟨bw, bh, heq⟩ := mem_cellBoxes hbox
    exact ⟨bw, bh, by rw [heq]; exact ⟨rfl, rfl, rfl, rfl⟩⟩
  · intro sq c lh lw ih iw
    rfl
  · norm_num [compute, cfg300, rawGrid, resolveSteps, cellBoxes, cellBoxesForSize,
      expandAspectRatios, expandLoop, containsClose, fabs, eps, mkBox,
      List.range_succ, Box.mk.injEq]
  · norm_num [resolveSteps, cfg300, Prod.ext_iff]

/-- Witness for C4: the geometry-example box is an emission of its cell
and satisfies the corner formulas. -/
theorem box_coordinate_formula_witness :
    (⟨9/20, 9/20, 11/20, 11/20⟩ : Box) ∈ cellBoxes sqId cfg300 150 150 300 300 ∧
    ∃ bw bh : ℚ,
      (⟨9/20, 9/20, 11/20, 11/20⟩ : Box).xmin = (150 - bw / 2) / 300 ∧
        (⟨9/20, 9/20, 11/20, 11/20⟩ : Box).ymin = (150 - bh / 2) / 300 ∧
        (⟨9/20, 9/20, 11/20, 11/20⟩ : Box).xmax = (150 + bw / 2) / 300 ∧
        (⟨9/20, 9/20, 11/20, 11/20⟩ : Box).ymax = (150 + bh / 2) / 300 := by
  have hmem : (⟨9/20, 9/20, 11/20, 11/20⟩ : Box) ∈ cellBoxes sqId cfg300 150 150 300 300 := by
    norm_num [cellBoxes, cfg300, cellBoxesForSize, expandAspectRatios, expandLoop,
      containsClose, fabs, eps, mkBox, List.range_succ, Box.mk.injEq]
  exact ⟨hmem, box_coordinate_formula.1 sqId cfg300 150 150 300 300 _ hmem⟩

/-- Spec-side description of the first per-size box: aspect ratio 1 with
side equal to the min size. -/
def ratio1Box (cx cy iw ih m : ℚ) : Box := mkBox cx cy m m iw ih

/-- Spec-side description of the optional second per-size box: aspect
ratio 1 with side sq of the min-max product. -/
def maxVariantBox (sq : ℚ → ℚ) (cx cy iw ih m mx : ℚ) : Box :=
  mkBox cx cy (sq (m * mx)) (sq (m * mx)) iw ih

/-- Spec-side description of a non-unit-ratio box: width m times sq of the
ratio and height m divided by sq of the ratio. -/
def ratioVariantBox (sq : ℚ → ℚ) (cx cy iw ih m r : ℚ) : Box :=
  mkBox cx cy (m * sq r) (m / sq r) iw ih

/-- Spec-side per-cell ordering contract: min-size-major; within one size
the ratio-1 box, then the max variant when max sizes are present, then one
box per expanded ratio at distance at least eps from 1, in expansion
order. -/
def cellOrderSpec (sq : ℚ → ℚ) (c : Config) (cx cy iw ih : ℚ) : List Box :=
  (List.range c.min_sizes.length).flatMap (fun s =>
    ratio1Box cx cy iw ih ((c.min_sizes.getD s 0 : ℤ) : ℚ) ::
      ((if 0 < c.max_sizes.length then
          [maxVariantBox sq cx cy iw ih ((c.min_sizes.getD s 0 : ℤ) : ℚ)
            ((c.max_sizes.getD s 0 : ℤ) : ℚ)]
        else []) ++
        ((expandAspectRatios c.aspect_ratios c.flip).filter
            (fun ar => decide (eps ≤ fabs (ar - 1)))).map
          (ratioVariantBox sq cx cy iw ih ((c.min_sizes.getD s 0 : ℤ) : ℚ))))

lemma filterMap_if_eq_filter_map {α β : Type} (p : α → Prop) [DecidablePred p]
    (f : α → β) (l : List α) :
    l.filterMap (fun a => if p a then none else some (f a)) =
      (l.filter (fun a => decide ¬ p a)).map f := by
  induction l with
  | nil => rfl
  | cons a l ih =>
    by_cases h : p a
    · simp [h, ih]
    · simp [h, ih]

/-- C3: within every cell the boxes are emitted min-size-major, and within
one size index the order is the ratio-1 box, then the sqrt(min*max) box
when max sizes are present, then one box per expanded ratio at distance at
least eps from 1 in expansion order; for two min sizes, no max sizes and a
single non-unit ratio the per-cell order is ratio1(a), ratio_r(a),
ratio1(b), ratio_r(b). -/
theorem emission_order :
    (∀ (sq : ℚ → ℚ) (c : Config) (cx cy iw ih : ℚ),
      cellBoxes sq c cx cy iw ih = cellOrderSpec sq c cx cy iw ih) ∧
    (∀ (sq : ℚ → ℚ) (a b : ℤ) (r : ℚ) (cx cy iw ih : ℚ), eps ≤ fabs (r - 1) →
      cellBoxes sq ⟨[a, b], [], [r], [], false, false, 0, 0, 1/2⟩ cx cy iw ih =
        [ratio1Box cx cy iw ih (a : ℚ), ratioVariantBox sq cx cy iw ih (a : ℚ) r,
          ratio1Box cx cy iw ih (b : ℚ), ratioVariantBox sq cx cy iw ih (b : ℚ) r]) := by
  have hpred : ∀ m : ℚ, (fun ar : ℚ => decide ¬ (fabs (ar - 1) < eps))
      = (fun ar : ℚ => decide (eps ≤ fabs (ar - 1))) := by
    intro m
    funext ar
    rw [decide_eq_decide]
    exact not_lt
  constructor
  · intro sq c cx cy iw ih
    simp only [cellBoxes, cellOrderSpec]
    congr 1
    funext s
    simp only [cellBoxesForSize, ratio1Box, maxVariantBox, ratioVariantBox]
    rw [filterMap_if_eq_filter_map (fun ar => fabs (ar - 1) < eps), hpred 0]
    rfl
  · intro sq a b r cx cy iw ih hr
    have hrlt : ¬ fabs (r - 1) < eps := not_lt.mpr hr
    have h0 : fabs (0 : ℚ) < eps := by norm_num [fabs, eps]
    simp [cellBoxes, cellBoxesForSize, expandAspectRatios, expandLoop, containsClose,
      hrlt, h0, List.range_succ, ratio1Box, ratioVariantBox, List.filterMap_cons]

/-- Witness for C3 at two concrete min sizes and the concrete non-unit
ratio 2. -/
theorem emission_order_witness :
    eps ≤ fabs ((2 : ℚ) - 1) ∧
    cellBoxes sqId ⟨[4, 9], [], [2], [], false, false, 0, 0, 1/2⟩ 0 0 1 1 =
      [ratio1Box 0 0 1 1 ((4 : ℤ) : ℚ), ratioVariantBox sqId 0 0 1 1 ((4 : ℤ) : ℚ) 2,
        ratio1Box 0 0 1 1 ((9 : ℤ) : ℚ), ratioVariantBox sqId 0 0 1 1 ((9 : ℤ) : ℚ) 2] :=
  ⟨by norm_num [fabs, eps],
    emission_order.2 sqId 4 9 2 0 0 1 1 (by norm_num [fabs, eps])⟩

lemma getD_nonneg_of_pos {l : List ℤ} (hl : ∀ m ∈ l, 0 < m) (s : ℕ) :
    (0 : ℤ) ≤ l.getD s 0 := by
  by_cases h : s < l.length
  · rw [List.getD_eq_getElem l 0 h]
    exact le_of_lt (hl _ (List.getElem_mem h))
  · rw [List.getD_eq_default l 0 (le_of_not_lt h)]

lemma mem_cellBoxes_widths {sq : ℚ → ℚ} {c : Config} {cx cy iw ih : ℚ} {box : Box}
    (hsq : ∀ x : ℚ, 0 ≤ x → 0 ≤ sq x)
    (hmin : ∀ m ∈ c.min_sizes, (0 : ℤ) < m)
    (hmax : ∀ m ∈ c.max_sizes, (0 : ℤ) < m)
    (har : ∀ r ∈ c.aspect_ratios, (0 : ℚ) < r)
    (hbox : box ∈ cellBoxes sq c cx cy iw ih) :
    ∃ bw bh : ℚ, 0 ≤ bw ∧ 0 ≤ bh ∧ box = mkBox cx cy bw bh iw ih := by
  obtain ⟨s, hs, hmem⟩ := List.mem_flatMap.mp hbox
  have hminv : (0 : ℚ) ≤ ((c.min_sizes.getD s 0 : ℤ) : ℚ) := by
    exact_mod_cast getD_nonneg_of_pos hmin s
  have hmaxv : (0 : ℚ) ≤ ((c.max_sizes.getD s 0 : ℤ) : ℚ) := by
    exact_mod_cast getD_nonneg_of_pos hmax s
  simp only [cellBoxesForSize] at hmem
  rcases List.mem_cons.mp hmem with heq | hmem
  · exact ⟨_, _, hminv, hminv, heq⟩
  rcases List.mem_append.mp hmem with hmem | hmem
  · by_cases hm : 0 < c.max_sizes.length
    · rw [if_pos hm] at hmem
      have heq := List.mem_singleton.mp hmem
      have hw : 0 ≤ sq (((c.min_sizes.getD s 0 : ℤ) : ℚ) * ((c.max_sizes.getD s 0 : ℤ) : ℚ)) :=
        hsq _ (mul_nonneg hminv hmaxv)
      exact ⟨_, _, hw, hw, heq⟩
    · rw [if_neg hm] at hmem
      simp at hmem
  · obtain ⟨ar, harmem, heq⟩ := List.mem_filterMap.mp hmem
    have harpos : 0 < ar := expand_pos c.aspect_ratios c.flip har ar harmem
    have hsqar : 0 ≤ sq ar := hsq ar (le_of_lt harpos)
    by_cases hcond : fabs (ar - 1) < eps
    · rw [if_pos hcond] at heq
      simp at heq
    · rw [if_neg hcond] at heq
      exact ⟨_, _, mul_nonneg hminv hsqar, div_nonneg hminv hsqar,
        (Option.some.inj heq).symm⟩

lemma mkBox_ordered {cx cy bw bh iw ih : ℚ} (hbw : 0 ≤ bw) (hbh : 0 ≤ bh)
    (hiw : 0 ≤ iw) (hih : 0 ≤ ih) :
    (mkBox cx cy bw bh iw ih).xmin ≤ (mkBox cx cy bw bh iw ih).xmax ∧
      (mkBox cx cy bw bh iw ih).ymin ≤ (mkBox cx cy bw bh iw ih).ymax := by
  exact ⟨div_le_div_of_nonneg_right (by linarith) hiw,
    div_le_div_of_nonneg_right (by linarith) hih⟩

lemma clipFunctor_mono {x y : ℚ} (h : x ≤ y) : clipFunctor x ≤ clipFunctor y :=
  min_le_min (max_le_max h le_rfl) le_rfl

/-- C10: with positive min sizes, max sizes and aspect ratios, every box
of the raw grid and of the final boxes output satisfies xmin at most xmax
and ymin at most ymax, before and after clipping. -/
theorem boxes_wellformed (sq : ℚ → ℚ) (c : Config) (lh lw ih iw : ℕ)
    (hsq : ∀ x : ℚ, 0 ≤ x → 0 ≤ sq x)
    (hmin : ∀ m ∈ c.min_sizes, (0 : ℤ) < m)
    (hmax : ∀ m ∈ c.max_sizes, (0 : ℤ) < m)
    (har : ∀ r ∈ c.aspect_ratios, (0 : ℚ) < r) :
    (∀ plane ∈ rawGrid sq c lh lw ih iw, ∀ cell ∈ plane, ∀ box ∈ cell,
      box.xmin ≤ box.xmax ∧ box.ymin ≤ box.ymax) ∧
    (∀ plane ∈ (compute sq c lh lw ih iw).1, ∀ cell ∈ plane, ∀ box ∈ cell,
      box.xmin ≤ box.xmax ∧ box.ymin ≤ box.ymax) := by
  have hraw : ∀ plane ∈ rawGrid sq c lh lw ih iw, ∀ cell ∈ plane, ∀ box ∈ cell,
      box.xmin ≤ box.xmax ∧ box.ymin ≤ box.ymax := by
    intro plane hplane cell hcell box hbox
    obtain ⟨h, _, rfl⟩ := List.mem_map.mp hplane
    obtain ⟨w, _, rfl⟩ := List.mem_map.mp hcell
    obtain ⟨bw, bh, hbw, hbh, rfl⟩ := mem_cellBoxes_widths hsq hmin hmax har hbox
    exact mkBox_ordered hbw hbh (Nat.cast_nonneg iw) (Nat.cast_nonneg ih)
  refine ⟨hraw, ?_⟩
  by_cases hclip : c.clip
  · intro plane hplane cell hcell box hbox
    rw [show (compute sq c lh lw ih iw).1
        = (rawGrid sq c lh lw ih iw).map (List.map (List.map clipBox)) by
      simp [compute, hclip]] at hplane
    obtain ⟨p0, hp0, rfl⟩ := List.mem_map.mp hplane
    obtain ⟨c0, hc0, rfl⟩ := List.mem_map.mp hcell
    obtain ⟨b0, hb0, rfl⟩ := List.mem_map.mp hbox
    have hb := hraw p0 hp0 c0 hc0 b0 hb0
    exact ⟨clipFunctor_mono hb.1, clipFunctor_mono hb.2⟩
  · rw [show (compute sq c lh lw ih iw).1 = rawGrid sq c lh lw ih iw by
      simp [compute, hclip]]
    exact hraw

/-- Witness for C10 at a concrete positive configuration with a max size
and a non-unit ratio. -/
theorem boxes_wellformed_witness :
    (∀ plane ∈ rawGrid sqId cfgMax 1 1 4 4, ∀ cell ∈ plane, ∀ box ∈ cell,
      box.xmin ≤ box.xmax ∧ box.ymin ≤ box.ymax) ∧
    (∀ plane ∈ (compute sqId cfgMax 1 1 4 4).1, ∀ cell ∈ plane, ∀ box ∈ cell,
      box.xmin ≤ box.xmax ∧ box.ymin ≤ box.ymax) :=
  boxes_wellformed sqId cfgMax 1 1 4 4
    (fun x hx => by simpa [sqId] using hx)
    (by intro m hm; simp [cfgMax] at hm; omega)
    (by intro m hm; simp [cfgMax] at hm; omega)
    (by intro r hr; simp [cfgMax] at hr; rw [hr]; norm_num)

lemma length_filterMap_of_none {α β : Type} (g : α → β) (p : α → Prop) [DecidablePred p]
    (l : List α) (h : ∀ a ∈ l, ¬ p a) :
    (l.filterMap (fun a => if p a then none else some (g a))).length = l.length := by
  induction l with
  | nil => rfl
  | cons a l ih =>
    rw [List.filterMap_cons, if_neg (h a (by simp))]
    simp only [List.length_cons]
    rw [ih (fun x hx => h x (List.mem_cons_of_mem _ hx))]

lemma cellBoxesForSize_length (sq : ℚ → ℚ) (c : Config) (cx cy iw ih : ℚ) {t : List ℚ}
    (ht : expandAspectRatios c.aspect_ratios c.flip = 1 :: t)
    (htail : ∀ ar ∈ t, eps ≤ fabs (ar - 1)) (s : ℕ) :
    (cellBoxesForSize sq c cx cy iw ih s).length =
      1 + (if 0 < c.max_sizes.length then 1 else 0) + t.length := by
  have h1 : fabs ((1 : ℚ) - 1) < eps := by norm_num [fabs, eps]
  have hkeep := length_filterMap_of_none
    (fun ar => mkBox cx cy (((c.min_sizes.getD s 0 : ℤ) : ℚ) * sq ar)
      (((c.min_sizes.getD s 0 : ℤ) : ℚ) / sq ar) iw ih)
    (fun ar => fabs (ar - 1) < eps) t
    (fun a ha => not_lt.mpr (htail a ha))
  simp only [cellBoxesForSize, ht, List.length_cons, List.length_append,
    List.filterMap_cons, if_pos h1, hkeep]
  by_cases hm : 0 < c.max_sizes.length
  · simp only [if_pos hm, List.length_singleton]
    omega
  · simp only [if_neg hm, List.length_nil]
    omega

/-- Configuration with aligned max sizes and a flipped non-unit ratio,
used to instantiate the amended count claim. -/
def cfgW : Config := ⟨[2, 3], [4, 6], [2], [1/10, 1/10, 1/5, 1/5], true, false, 0, 0, 1/2⟩

/-- C1 counterexample: at cfgDup the alignment precondition holds (no max
sizes), yet the per-cell emission count is 2 while numPriors is 3, because
the flip reciprocal of the kept ratio 1 + 1e-6 lies strictly within eps of
1 and is skipped by the generator while still counted by the formula. -/
theorem count_mismatch :
    (cfgDup.max_sizes = [] ∨ cfgDup.max_sizes.length = cfgDup.min_sizes.length) ∧
      ¬ (cellBoxes sqId cfgDup 0 0 1 1).length = numPriors cfgDup := by
  refine ⟨Or.inl rfl, ?_⟩
  have h1 : (cellBoxes sqId cfgDup 0 0 1 1).length = 2 := by
    norm_num [cellBoxes, cellBoxesForSize, cfgDup, expandAspectRatios, expandLoop,
      containsClose, fabs, eps, List.range_succ, Function.comp, List.filterMap_cons]
  have h2 : numPriors cfgDup = 3 := by
    norm_num [numPriors, cfgDup, expandAspectRatios, expandLoop, containsClose, fabs, eps]
  omega

/-- C1 amended: when max_sizes is empty or aligned with min_sizes, and
additionally every expanded ratio after the leading 1 lies at distance at
least eps from 1 (which the unconditional flip-reciprocal append does not
guarantee), the per-cell emission count equals numPriors. -/
theorem count_amended (sq : ℚ → ℚ) (c : Config) (cx cy iw ih : ℚ)
    (halign : c.max_sizes = [] ∨ c.max_sizes.length = c.min_sizes.length)
    (htail : ∀ ar ∈ (expandAspectRatios c.aspect_ratios c.flip).tail,
      eps ≤ fabs (ar - 1)) :
    (cellBoxes sq c cx cy iw ih).length = numPriors c := by
  obtain ⟨t, ht⟩ := expand_eq_cons c.aspect_ratios c.flip
  have htail' : ∀ ar ∈ t, eps ≤ fabs (ar - 1) := by
    intro ar har
    exact htail ar (by rw [ht]; exact har)
  have hcell : (cellBoxes sq c cx cy iw ih).length
      = c.min_sizes.length * (1 + (if 0 < c.max_sizes.length then 1 else 0) + t.length) := by
    rw [cellBoxes, List.length_flatMap]
    simp only [Function.comp_def]
    rw [List.map_congr_left (fun s _ => cellBoxesForSize_length sq c cx cy iw ih ht htail' s)]
    simp [List.map_const', List.sum_replicate, smul_eq_mul]
  have hexp : (expandAspectRatios c.aspect_ratios c.flip).length = t.length + 1 := by
    rw [ht]
    simp
  rw [hcell, numPriors, hexp]
  by_cases hm : 0 < c.max_sizes.length
  · have hlen : c.max_sizes.length = c.min_sizes.length := by
      rcases halign with hemp | hlen
      · rw [hemp] at hm
        simp at hm
      · exact hlen
    rw [if_pos hm, if_pos hm, hlen]
    ring
  · rw [if_neg hm, if_neg hm]
    ring

/-- Witness for the amended C1 at a concrete aligned configuration with a
flipped ratio. -/
theorem count_amended_witness :
    (cellBoxes sqId cfgW 0 0 1 1).length = numPriors cfgW :=
  count_amended sqId cfgW 0 0 1 1 (Or.inr rfl)
    (by norm_num [cfgW, expandAspectRatios, expandLoop, containsClose, fabs, eps])

end PriorBox
